import Mathlib

/-!
Verification of the adaptive curriculum engine of the self-evolving-bench
repository, as a shallow embedding in Lean 4.

Conventions of the embedding:
* Python floats are modelled as exact rationals (`ℚ`) for the running state
  of the trend estimator and the policy thresholds, and as reals (`ℝ`) for
  the half-life conversion, which involves a real exponential.
* The sha256 hexdigest used as a fingerprint in `bench/generate.py` is
  modelled as an injective encoding of the normalized text, i.e. the
  fingerprint of a text is its normalized form itself.
* The TF-IDF cosine-similarity vector computed by sklearn inside
  `NoveltyFilter.is_novel` is modelled as an oracle parameter
  `simFn : List String → String → List ℚ` returning one similarity per
  history entry; the surrounding control flow (hash short-circuit, empty
  history, max/argmax, threshold test) is embedded faithfully.
* The LLM collaborators are modelled as oracles: the question generator is
  a stream of candidate texts, the grader reply is the JSON value already
  extracted by `_safe_json_extract` (an `Option JsonVal`).
-/

/-! ## bench/ema.py -/

/-- Embedding of `alpha_from_half_life` (bench/ema.py, lines 8-15):
`alpha = 1 - 2^(-1/half_life)`, raising `ValueError` for `half_life <= 0`.
The raised exception is modelled as `Except.error`. -/
noncomputable def alpha_from_half_life (half_life : ℝ) : Except String ℝ :=
  if half_life ≤ 0 then Except.error "half_life must be > 0"
  else Except.ok (1 - (2 : ℝ) ^ (-1 / half_life))

/-- Value of an `Except`, defaulting to `0` on `error`; used to state facts
about the returned smoothing factor. -/
def okD (e : Except String ℝ) : ℝ :=
  match e with
  | Except.ok v => v
  | Except.error _ => 0

/-- Embedding of the `EMAScore` dataclass (bench/ema.py, lines 18-28). -/
structure EMAScore where
  alpha : ℚ
  value : Option ℚ := none
deriving DecidableEq

/-- Embedding of `EMAScore.update` (bench/ema.py, lines 23-28): on the first
call the value is initialized to the input, afterwards
`value = alpha * x + (1 - alpha) * value`; returns the new value together
with the updated state. -/
def EMAScore.update (e : EMAScore) (x : ℚ) : ℚ × EMAScore :=
  match e.value with
  | none => (x, { e with value := some x })
  | some v =>
      let v' := e.alpha * x + (1 - e.alpha) * v
      (v', { e with value := some v' })

/-- Folding `EMAScore.update` over a list of inputs, oldest first. -/
def runEMA (e : EMAScore) (xs : List ℚ) : EMAScore :=
  xs.foldl (fun s x => (s.update x).2) e

/-! ## bench/evolve.py -/

/-- Embedding of the `EvolutionPolicy` dataclass (bench/evolve.py,
lines 21-26) with its default field values. -/
structure EvolutionPolicy where
  window : ℕ := 30
  focus_top_k_tags : ℕ := 3
  difficulty_min : ℤ := 1
  difficulty_max : ℤ := 5
deriving DecidableEq

/-- Python slice `l[-n:]`, as used for recency windows: the last `n`
elements, except that `l[-0:]` is the whole list. -/
def takeLastPy {α : Type} (n : ℕ) (l : List α) : List α :=
  if n = 0 then l else l.drop (l.length - n)

/-- List of distinct elements in order of first occurrence; models the
iteration order of a `collections.Counter` built by counting the list
front to back. -/
def firstSeen : List String → List String
  | [] => []
  | x :: xs => x :: (firstSeen xs).filter (fun y => y ≠ x)

/-- Insert `x` into a list sorted by `cnt` descending, placing `x` before
the first element whose count does not exceed the count of `x`; the
insertion step of a stable descending sort. -/
def insertDesc (cnt : String → ℕ) (x : String) : List String → List String
  | [] => [x]
  | y :: ys => if cnt y ≤ cnt x then x :: y :: ys else y :: insertDesc cnt x ys

/-- Stable insertion sort by `cnt` descending: elements with equal counts
keep their input order. -/
def sortDesc (cnt : String → ℕ) : List String → List String
  | [] => []
  | x :: xs => insertDesc cnt x (sortDesc cnt xs)

/-- Embedding of `collections.Counter(l).most_common(k)` restricted to the
element column: the distinct elements of `l` in first-seen order, stably
sorted by multiplicity descending, truncated to `k`. CPython documents
exactly this tie behavior: elements with equal counts are ordered in the
order first encountered. -/
def mostCommon (k : ℕ) (l : List String) : List String :=
  (sortDesc (fun t => l.count t) (firstSeen l)).take k

/-- One evaluation record as consumed by `EvolutionPolicy.next_focus`
(bench/evolve.py): its `error_tags` list and its `subscores` mapping. -/
structure EvalEntry where
  error_tags : List String
  subscores : List (String × ℚ)

/-- Fixed lookup from weak subscore dimension to skill label
(bench/evolve.py, lines 54-60); dimensions absent from the table pass
through unchanged. -/
def skillMap (s : String) : String :=
  if s = "correctness" then "structured reasoning"
  else if s = "completeness" then "constraint following"
  else if s = "reasoning_quality" then "structured reasoning"
  else if s = "format_compliance" then "constraint following"
  else if s = "safety" then "robustness / uncertainty"
  else s

/-- Embedding of `EvolutionPolicy.next_focus` (bench/evolve.py,
lines 28-68). Returns `(focus_skills, focus_tags)`. -/
def EvolutionPolicy.next_focus (p : EvolutionPolicy) (eval_history : List EvalEntry) :
    List String × List String :=
  let recent := if eval_history.isEmpty then [] else takeLastPy p.window eval_history
  let tags := recent.flatMap (fun e => e.error_tags)
  let low_subskills := recent.flatMap (fun e =>
    e.subscores.filterMap (fun kv =>
      if kv.2 < 6/10 ∧ kv.1 ≠ "safety" then some kv.1 else none))
  let top_tags := mostCommon p.focus_top_k_tags tags
  let top_subs := mostCommon 3 low_subskills
  let focus_skills := top_subs.map skillMap
  let focus_skills := if focus_skills.isEmpty then ["mixed reasoning and analysis"]
    else focus_skills
  (focus_skills, top_tags)

/-- The flattened stream of error tags over the recency window, exactly as
collected by `next_focus`. -/
def tagStream (p : EvolutionPolicy) (eval_history : List EvalEntry) : List String :=
  (if eval_history.isEmpty then [] else takeLastPy p.window eval_history).flatMap
    (fun e => e.error_tags)

/-- Embedding of `EvolutionPolicy.adjust_difficulty` (bench/evolve.py,
lines 70-81): increment if the trend value is at least 0.82, decrement if
it is at most 0.62, then clamp to the configured difficulty bounds. -/
def EvolutionPolicy.adjust_difficulty (p : EvolutionPolicy) (current : ℤ) (ema_value : ℚ) : ℤ :=
  let nxt : ℤ :=
    if 82/100 ≤ ema_value then current + 1
    else if ema_value ≤ 62/100 then current - 1
    else current
  max p.difficulty_min (min p.difficulty_max nxt)

/-! ## bench/generate.py -/

/-- Whitespace characters matched by the regex class used in
`normalize_text` (ASCII range). -/
def isPySpace (c : Char) : Bool :=
  c == ' ' || c == '\t' || c == '\n' || c == '\r' || c == '\x0b' || c == '\x0c'

/-- Collapse runs of space characters to a single space; with every
whitespace character first mapped to a space, this models the regex
substitution of one or more whitespace characters by one space. -/
def collapseSpaces : List Char → List Char
  | c1 :: c2 :: rest =>
      if c1 = ' ' ∧ c2 = ' ' then collapseSpaces (c2 :: rest)
      else c1 :: collapseSpaces (c2 :: rest)
  | l => l

/-- Drop characters satisfying `p` from both ends of a list. -/
def dropEdge (p : Char → Bool) (l : List Char) : List Char :=
  ((l.dropWhile p).reverse.dropWhile p).reverse

/-- Characters kept by the allow-list regex of `normalize_text`
(bench/generate.py, line 21): word characters, whitespace, and a fixed
set of punctuation. -/
def isAllowedChar (c : Char) : Bool :=
  c.isAlphanum || c == '_' || isPySpace c ||
    c == '.' || c == ',' || c == '?' || c == '!' || c == ':' || c == ';' ||
    c == '-' || c == '(' || c == ')' || c == '[' || c == ']' || c == '/'

/-- Embedding of `normalize_text` (bench/generate.py, lines 17-22):
lower-case, collapse whitespace runs to single spaces and strip the ends,
then remove characters outside the allow-list. ASCII case folding models
the Python behavior on the ASCII texts considered here. -/
def normalize_text (s : String) : String :=
  let l := s.toList.map Char.toLower
  let l := l.map (fun c => if isPySpace c then ' ' else c)
  let l := dropEdge (fun c => c == ' ') (collapseSpaces l)
  String.mk (l.filter isAllowedChar)

/-- Embedding of `text_hash` (bench/generate.py, lines 25-26): the sha256
hexdigest of the normalized text. The digest is modelled as an injective
encoding, so the fingerprint of a text is its normalized form itself;
all the repository uses of the digest are exact-match comparisons, for
which an injective encoding is equivalent. -/
def text_hash (s : String) : String := normalize_text s

/-- Python `str.strip()` on a string, as applied to candidate question
texts before the novelty check. -/
def pyStrip (s : String) : String :=
  String.mk (dropEdge isPySpace s.toList)

/-- Embedding of the `NoveltyFilter` dataclass state (bench/generate.py,
lines 29-36): the similarity threshold, the history capacity, the set of
fingerprints, and the ordered text history (oldest first). -/
structure NoveltyFilter where
  max_sim : ℚ := 88/100
  max_history : ℕ := 5000
  hashes : Finset String := ∅
  texts : List String := []
deriving DecidableEq

/-- A fresh `NoveltyFilter` with threshold `τ` and capacity `C`. -/
def initNF (τ : ℚ) (C : ℕ) : NoveltyFilter :=
  { max_sim := τ, max_history := C, hashes := ∅, texts := [] }

/-- Embedding of `NoveltyFilter.add` (bench/generate.py, lines 42-49):
insert the fingerprint, append the text, and when the history now exceeds
the capacity, pop the oldest text and discard its fingerprint. -/
def NoveltyFilter.add (f : NoveltyFilter) (question : String) : NoveltyFilter :=
  let h := text_hash question
  let hashes := insert h f.hashes
  let texts := f.texts ++ [question]
  if texts.length > f.max_history then
    { f with hashes := hashes.erase (text_hash texts.headI), texts := texts.tail }
  else
    { f with hashes := hashes, texts := texts }

/-- Embedding of `NoveltyFilter.seed` (bench/generate.py, lines 38-40):
add the last `max_history` entries of the given list, front to back. -/
def NoveltyFilter.seed (f : NoveltyFilter) (previous_questions : List String) : NoveltyFilter :=
  (takeLastPy f.max_history previous_questions).foldl NoveltyFilter.add f

/-- The info mapping returned by `NoveltyFilter.is_novel`: `hash_dup`,
`max_sim` and `sim_to_index`. -/
structure NovInfo where
  hash_dup : Bool
  max_sim : ℚ
  sim_to_index : Option ℕ
deriving DecidableEq

/-- Maximum of a list of rationals, `0` for the empty list; models
`np.max` with the guard used in `is_novel`. -/
def maxD : List ℚ → ℚ
  | [] => 0
  | x :: xs => xs.foldl max x

/-- Helper for `argmaxIdx`: best index so far, best value so far, next
index, remaining values. Strict improvement keeps the first maximum,
matching `np.argmax`. -/
def argmaxGo (bi : ℕ) (bv : ℚ) (i : ℕ) : List ℚ → ℕ
  | [] => bi
  | y :: ys => if bv < y then argmaxGo i y (i + 1) ys else argmaxGo bi bv (i + 1) ys

/-- Index of the first maximum of a list of rationals, `none` for the
empty list; models `np.argmax` with the guard used in `is_novel`. -/
def argmaxIdx : List ℚ → Option ℕ
  | [] => none
  | x :: xs => some (argmaxGo 0 x 1 xs)

/-- Embedding of `NoveltyFilter.is_novel` (bench/generate.py, lines
51-72). The TF-IDF cosine-similarity vector against the history is the
oracle `simFn`; the hash short-circuit, the empty-history acceptance, the
max/argmax extraction, and the threshold test follow the source. -/
def NoveltyFilter.is_novel (simFn : List String → String → List ℚ)
    (f : NoveltyFilter) (question : String) : Bool × NovInfo :=
  let h := text_hash question
  if h ∈ f.hashes then
    (false, { hash_dup := true, max_sim := 1, sim_to_index := none })
  else if f.texts = [] then
    (true, { hash_dup := false, max_sim := 0, sim_to_index := none })
  else
    let sims := simFn f.texts question
    let max_sim := maxD sims
    let idx := argmaxIdx sims
    if f.max_sim ≤ max_sim then
      (false, { hash_dup := false, max_sim := max_sim, sim_to_index := idx })
    else
      (true, { hash_dup := false, max_sim := max_sim, sim_to_index := idx })

/-- A trivial similarity oracle reporting similarity `0` against every
history entry; used to instantiate closed statements whose outcome does
not depend on the similarity values. -/
def simZero : List String → String → List ℚ :=
  fun texts _ => texts.map (fun _ => 0)

/-- The info mapping returned by `generate_novel_question`: the success
path returns the `is_novel` info (no `forced` key, modelled as
`forced = false`); the exhausted path returns `forced = true` merged with
the last rejection info, which is absent when the retry budget was zero. -/
structure GenInfo where
  forced : Bool
  info : Option NovInfo
deriving DecidableEq

/-- Loop of `generate_novel_question` (bench/generate.py, lines 175-186),
with the generator collaborator modelled as a stream `cand` of candidate
question texts indexed by call number. Each round strips the candidate,
checks novelty, and on acceptance registers the stripped text and returns;
when the fuel runs out, one further candidate is generated and returned
with `forced = true` and the last rejection info, without registration. -/
def genNovelGo (simFn : List String → String → List ℚ) (cand : ℕ → String)
    (f : NoveltyFilter) (i : ℕ) (last : Option NovInfo) :
    (fuel : ℕ) → String × GenInfo × NoveltyFilter
  | 0 => (cand i, { forced := true, info := last }, f)
  | fuel + 1 =>
      let q := pyStrip (cand i)
      let r := f.is_novel simFn q
      if r.1 then
        (cand i, { forced := false, info := some r.2 }, f.add q)
      else
        genNovelGo simFn cand f (i + 1) (some r.2) fuel

/-- Embedding of `generate_novel_question` (bench/generate.py, lines
163-186): up to `max_regen` candidates are checked for novelty; the first
accepted one is registered and returned, otherwise one final candidate is
returned with `forced = true`. The returned triple also carries the final
filter state. -/
def generate_novel_question (simFn : List String → String → List ℚ)
    (cand : ℕ → String) (f : NoveltyFilter) (max_regen : ℕ) :
    String × GenInfo × NoveltyFilter :=
  genNovelGo simFn cand f 0 none max_regen

/-- Operations on a `NoveltyFilter` reachable from the repository: seeding
from a list and adding a single text. -/
inductive NFOp where
  | seed (qs : List String)
  | add (q : String)

/-- Apply one operation to a filter. -/
def applyNFOp (f : NoveltyFilter) : NFOp → NoveltyFilter
  | NFOp.seed qs => f.seed qs
  | NFOp.add q => f.add q

/-- Run a sequence of operations from a fresh filter state. -/
def runNFOps (f : NoveltyFilter) (ops : List NFOp) : NoveltyFilter :=
  ops.foldl applyNFOp f

/-- The texts inserted by one operation on a filter of capacity `C`: a
seed inserts only the last `C` entries of its list. -/
def opAdds (C : ℕ) : NFOp → List String
  | NFOp.seed qs => takeLastPy C qs
  | NFOp.add q => [q]

/-- The texts actually inserted by a sequence of operations on a filter of
capacity `C`. -/
def addedTexts (C : ℕ) (ops : List NFOp) : List String :=
  ops.flatMap (opAdds C)

/-! ## bench/evaluate.py -/

/-- JSON values as produced by parsing a grader reply; numbers are
modelled as exact rationals. -/
inductive JsonVal where
  | null
  | bool (b : Bool)
  | num (q : ℚ)
  | str (s : String)
  | arr (xs : List JsonVal)
  | obj (fields : List (String × JsonVal))

/-- Python truthiness of a JSON value, as used by the `or` fallback on the
extraction result. -/
def jTruthy : JsonVal → Bool
  | JsonVal.null => false
  | JsonVal.bool b => b
  | JsonVal.num q => decide (q ≠ 0)
  | JsonVal.str s => decide (s ≠ "")
  | JsonVal.arr xs => !xs.isEmpty
  | JsonVal.obj fs => !fs.isEmpty

/-- Dictionary lookup on an association list of JSON object fields. -/
def jLookup (fields : List (String × JsonVal)) (k : String) : Option JsonVal :=
  (fields.find? (fun p => p.1 == k)).map (fun p => p.2)

/-- Python `dict.setdefault`: keep an existing entry, otherwise append the
default at the end (insertion order). -/
def jSetdefault (fields : List (String × JsonVal)) (k : String) (v : JsonVal) :
    List (String × JsonVal) :=
  if (fields.find? (fun p => p.1 == k)).isSome then fields else fields ++ [(k, v)]

/-- Python dictionary assignment to an existing or absent key is modelled
only for present keys, which is how the source uses it after the
`setdefault` calls: the value at `k` is replaced in place. -/
def jUpdate (fields : List (String × JsonVal)) (k : String) (v : JsonVal) :
    List (String × JsonVal) :=
  fields.map (fun p => if p.1 == k then (p.1, v) else p)

/-- Python `float(x)` on a JSON value: numbers convert to themselves,
booleans to 0 or 1, strings through the oracle `strF` (the decimal string
parser, `none` meaning `ValueError`), everything else raises. -/
def jFloat (strF : String → Option ℚ) : JsonVal → Option ℚ
  | JsonVal.num q => some q
  | JsonVal.bool b => some (if b then 1 else 0)
  | JsonVal.str s => strF s
  | _ => none

/-- Embedding of the local `clamp` of `Evaluator.evaluate`
(bench/evaluate.py, lines 94-98): convert to float and clamp into `[0,1]`,
returning `0.0` when conversion raises. -/
def clampJ (strF : String → Option ℚ) (j : JsonVal) : ℚ :=
  match jFloat strF j with
  | some x => max 0 (min 1 x)
  | none => 0

/-- The `or {}` fallback applied to the JSON extraction result
(bench/evaluate.py, line 85): `None` and falsy values become the empty
object. -/
def orEmptyObj : Option JsonVal → JsonVal
  | none => JsonVal.obj []
  | some j => if jTruthy j then j else JsonVal.obj []

/-- The defaulted subscore mapping: the five `setdefault` calls of the
loop in `Evaluator.evaluate` (bench/evaluate.py, lines 89-90). -/
def defaultSubs (sfs0 : List (String × JsonVal)) : List (String × JsonVal) :=
  jSetdefault (jSetdefault (jSetdefault (jSetdefault (jSetdefault
    sfs0 "correctness" (JsonVal.num 0))
    "completeness" (JsonVal.num 0))
    "reasoning_quality" (JsonVal.num 0))
    "format_compliance" (JsonVal.num 0))
    "safety" (JsonVal.num 1)

/-- The `error_tags` list check of `Evaluator.evaluate`
(bench/evaluate.py, lines 102-103): a non-list value is replaced by the
empty list. -/
def fixTags (fs : List (String × JsonVal)) : List (String × JsonVal) :=
  match jLookup fs "error_tags" with
  | some (JsonVal.arr _) => fs
  | _ => jUpdate fs "error_tags" (JsonVal.arr [])

/-- The normalized reply object on the non-raising path of
`Evaluator.evaluate` (bench/evaluate.py, lines 87-104): `fs0` is the
extracted reply object, `sfs0` its `subscores` object after the two
initial `setdefault` calls. The remaining `setdefault` calls, the score
clamp, the subscore clamps, and the `error_tags` list check are applied
in source order. -/
def evalNormFields (strF : String → Option ℚ) (fs0 sfs0 : List (String × JsonVal)) :
    List (String × JsonVal) :=
  let fs2 := jSetdefault (jSetdefault fs0 "score" (JsonVal.num 0))
    "subscores" (JsonVal.obj [])
  let sfs5 := defaultSubs sfs0
  let fs3 := jUpdate fs2 "subscores" (JsonVal.obj sfs5)
  let fs4 := jSetdefault fs3 "error_tags" (JsonVal.arr [])
  let fs5 := jSetdefault fs4 "feedback" (JsonVal.str "")
  let fs6 := jUpdate fs5 "score"
    (JsonVal.num (clampJ strF ((jLookup fs5 "score").getD (JsonVal.num 0))))
  let sfs6 := sfs5.map (fun p => (p.1, JsonVal.num (clampJ strF p.2)))
  let fs7 := jUpdate fs6 "subscores" (JsonVal.obj sfs6)
  fixTags fs7

/-- Embedding of the normalization part of `Evaluator.evaluate`
(bench/evaluate.py, lines 85-104), applied to the result of
`_safe_json_extract` on the grader reply. The `setdefault` calls on a
non-dictionary raise `AttributeError`, modelled as `Except.error`;
otherwise the defaulted and clamped field list is returned. -/
def evaluateNorm (strF : String → Option ℚ) (extracted : Option JsonVal) :
    Except String (List (String × JsonVal)) :=
  match orEmptyObj extracted with
  | JsonVal.obj fs0 =>
    match jLookup (jSetdefault (jSetdefault fs0 "score" (JsonVal.num 0))
        "subscores" (JsonVal.obj [])) "subscores" with
    | some (JsonVal.obj sfs0) => Except.ok (evalNormFields strF fs0 sfs0)
    | _ => Except.error "AttributeError: setdefault on non-dict subscores"
  | _ => Except.error "AttributeError: setdefault on non-dict reply"

/-- A string-to-float oracle that always fails; used to instantiate closed
statements whose outcome does not depend on string parsing. -/
def strFNone : String → Option ℚ := fun _ => none

/-- Decidable test for success of an `Except` computation. -/
def isOkE {ε α : Type} : Except ε α → Bool
  | Except.ok _ => true
  | Except.error _ => false

/-! ## Helper lemmas for the trend estimator -/

/-- Bounds of `adjust_difficulty` when the difficulty band is non-empty. -/
lemma adjust_difficulty_bounds (p : EvolutionPolicy) (c : ℤ) (e : ℚ)
    (h : p.difficulty_min ≤ p.difficulty_max) :
    p.difficulty_min ≤ p.adjust_difficulty c e ∧ p.adjust_difficulty c e ≤ p.difficulty_max := by
  unfold EvolutionPolicy.adjust_difficulty
  dsimp only
  omega

/-- Closed form of the running trend state started from a prior value:
the prior value keeps weight `(1-a)^n`, and the input `k` steps before the
end contributes `a * (1-a)^k`. -/
lemma runEMA_some (a : ℚ) : ∀ (xs : List ℚ) (v0 : ℚ),
    (runEMA ⟨a, some v0⟩ xs).value =
      some ((1 - a) ^ xs.length * v0 +
        ∑ k ∈ Finset.range xs.length, a * (1 - a) ^ k * xs.getD (xs.length - 1 - k) 0)
  | [], v0 => by simp [runEMA]
  | x :: xs, v0 => by
      have h1 : runEMA ⟨a, some v0⟩ (x :: xs) = runEMA ⟨a, some (a * x + (1 - a) * v0)⟩ xs := by
        simp [runEMA, EMAScore.update]
      rw [h1, runEMA_some a xs (a * x + (1 - a) * v0)]
      congr 1
      have hidx : ∀ k ∈ Finset.range xs.length,
          a * (1 - a) ^ k * ((x :: xs).getD ((x :: xs).length - 1 - k) 0)
            = a * (1 - a) ^ k * (xs.getD (xs.length - 1 - k) 0) := by
        intro k hk
        rw [Finset.mem_range] at hk
        have h2 : (x :: xs).length - 1 - k = (xs.length - 1 - k) + 1 := by
          simp only [List.length_cons]
          omega
        rw [h2, List.getD_cons_succ]
      rw [List.length_cons, Finset.sum_range_succ]
      have h3 : (x :: xs).length - 1 - xs.length = 0 := by simp
      calc (1 - a) ^ xs.length * (a * x + (1 - a) * v0)
            + ∑ k ∈ Finset.range xs.length, a * (1 - a) ^ k * xs.getD (xs.length - 1 - k) 0
          = (1 - a) ^ (xs.length + 1) * v0
            + ((∑ k ∈ Finset.range xs.length, a * (1 - a) ^ k * xs.getD (xs.length - 1 - k) 0)
               + a * (1 - a) ^ xs.length * x) := by ring
        _ = (1 - a) ^ (xs.length + 1) * v0
            + ((∑ k ∈ Finset.range xs.length,
                  a * (1 - a) ^ k * ((x :: xs).getD ((x :: xs).length - 1 - k) 0))
               + a * (1 - a) ^ xs.length * ((x :: xs).getD ((x :: xs).length - 1 - xs.length) 0)) := by
            rw [Finset.sum_congr rfl hidx, h3]
            simp

/-! ## C3, C4, C7, C9, C10 -/

/-- C9: `alpha_from_half_life` fails exactly for non-positive half-lives,
returns `1 - 2 ^ (-1/h)` for positive half-lives, and yields the factor
`1/2` at half-life `1`. -/
theorem C9_from_half_life :
    (∀ h : ℝ, (∃ e, alpha_from_half_life h = Except.error e) ↔ h ≤ 0)
    ∧ (∀ h : ℝ, 0 < h → alpha_from_half_life h = Except.ok (1 - (2 : ℝ) ^ (-1 / h)))
    ∧ alpha_from_half_life 1 = Except.ok (1 / 2) := by
  refine ⟨fun h => ?_, fun h hh => ?_, ?_⟩
  · unfold alpha_from_half_life
    by_cases hh : h ≤ 0 <;> simp [hh]
  · rw [alpha_from_half_life, if_neg (not_le.mpr hh)]
  · rw [alpha_from_half_life, if_neg (by norm_num)]
    have : (-1 : ℝ) / 1 = -1 := by norm_num
    rw [this, Real.rpow_neg_one]
    norm_num

/-- C9 witness: the theorem instantiated at half-lives `1` and `-1`. -/
theorem C9_witness :
    alpha_from_half_life 1 = Except.ok (1 - (2 : ℝ) ^ (-1 / (1 : ℝ)))
    ∧ (∃ e, alpha_from_half_life (-1 : ℝ) = Except.error e) :=
  ⟨C9_from_half_life.2.1 1 (by norm_num), (C9_from_half_life.1 (-1)).mpr (by norm_num)⟩

/-- C3 counterexample: the smoothing factor is not increasing in the
half-life: at half-lives `1 < 2` the factor strictly drops. -/
theorem C3_counterexample :
    (0 : ℝ) < 1 ∧ (1 : ℝ) < 2
    ∧ okD (alpha_from_half_life 2) < okD (alpha_from_half_life 1) := by
  refine ⟨by norm_num, by norm_num, ?_⟩
  rw [alpha_from_half_life, if_neg (by norm_num), alpha_from_half_life, if_neg (by norm_num)]
  simp only [okD]
  have h1 : ((2 : ℝ) ^ (-1 / (1:ℝ) : ℝ)) < (2 : ℝ) ^ (-1 / (2:ℝ) : ℝ) := by
    rw [Real.rpow_lt_rpow_left_iff one_lt_two]
    norm_num
  linarith

/-- C3 amended: `alpha_from_half_life` is strictly decreasing on positive
half-lives. -/
theorem C3_strict_anti (h1 h2 : ℝ) (hp : 0 < h1) (hlt : h1 < h2) :
    okD (alpha_from_half_life h2) < okD (alpha_from_half_life h1) := by
  have hp2 : 0 < h2 := hp.trans hlt
  rw [alpha_from_half_life, if_neg (not_le.mpr hp2), alpha_from_half_life,
    if_neg (not_le.mpr hp)]
  simp only [okD]
  have hd : (1 : ℝ) / h2 < 1 / h1 := one_div_lt_one_div_of_lt hp hlt
  have hneg : (-1 : ℝ) / h1 < -1 / h2 := by
    rw [neg_div, neg_div]
    linarith
  have := (Real.rpow_lt_rpow_left_iff (one_lt_two : (1 : ℝ) < 2)).mpr hneg
  linarith

/-- C3 witness: strict decrease instantiated at half-lives `1 < 2`. -/
theorem C3_witness : okD (alpha_from_half_life 2) < okD (alpha_from_half_life 1) :=
  C3_strict_anti 1 2 (by norm_num) (by norm_num)

/-- C4 counterexample: with factor `1/2` and inputs `1, 0`, the running
value is `1/2`, while the weight profile of the claim (every input from
`k` steps ago weighted `a * (1-a)^k`, including the very first input)
sums to `1/4`. -/
theorem C4_counterexample :
    (runEMA ⟨1 / 2, none⟩ [1, 0]).value = some (1 / 2)
    ∧ (∑ k ∈ Finset.range 2, (1 / 2 : ℚ) * (1 / 2) ^ k * ([1, 0].getD (1 - k) 0)) = 1 / 4
    ∧ (1 / 2 : ℚ) ≠ 1 / 4 := by
  refine ⟨?_, ?_, by norm_num⟩
  · simp [runEMA, EMAScore.update]
    norm_num
  · rw [Finset.sum_range_succ, Finset.sum_range_succ]
    norm_num

/-- C4 amended: starting from no prior value, after updates with
`x0 :: rest` the stored value weights the input `k` steps before the end
(for `k` below `rest.length`) by `a * (1-a)^k`, while the first input
`x0` keeps the full residual weight `(1-a)^rest.length` rather than
`a * (1-a)^rest.length`. -/
theorem C4_ema_weights (a x0 : ℚ) (rest : List ℚ) :
    (runEMA ⟨a, none⟩ (x0 :: rest)).value =
      some ((1 - a) ^ rest.length * x0 +
        ∑ k ∈ Finset.range rest.length, a * (1 - a) ^ k * rest.getD (rest.length - 1 - k) 0) := by
  have h0 : runEMA ⟨a, none⟩ (x0 :: rest) = runEMA ⟨a, some x0⟩ rest := by
    simp [runEMA, EMAScore.update]
  rw [h0, runEMA_some]

/-- C7: the difficulty adjustment increments at trend values at least
`0.82`, decrements at trend values at most `0.62`, is unchanged in the
dead zone, clamps to the configured band, matches the three concrete
examples on the default policy, and any number of consecutive
adjustments keeps the default-policy difficulty inside `[1, 5]`. -/
theorem C7_adjust_difficulty :
    (∀ (p : EvolutionPolicy) (c : ℤ) (e : ℚ),
      (82 / 100 ≤ e →
        p.adjust_difficulty c e = max p.difficulty_min (min p.difficulty_max (c + 1)))
      ∧ (e ≤ 62 / 100 →
        p.adjust_difficulty c e = max p.difficulty_min (min p.difficulty_max (c - 1)))
      ∧ (62 / 100 < e → e < 82 / 100 →
        p.adjust_difficulty c e = max p.difficulty_min (min p.difficulty_max c))
      ∧ (p.difficulty_min ≤ p.difficulty_max →
        p.difficulty_min ≤ p.adjust_difficulty c e
          ∧ p.adjust_difficulty c e ≤ p.difficulty_max))
    ∧ EvolutionPolicy.adjust_difficulty {} 3 (82 / 100) = 4
    ∧ EvolutionPolicy.adjust_difficulty {} 3 (62 / 100) = 2
    ∧ EvolutionPolicy.adjust_difficulty {} 3 (7 / 10) = 3
    ∧ (∀ (c : ℤ) (ems : List ℚ), 1 ≤ c → c ≤ 5 →
        1 ≤ ems.foldl (fun d e => EvolutionPolicy.adjust_difficulty {} d e) c
          ∧ ems.foldl (fun d e => EvolutionPolicy.adjust_difficulty {} d e) c ≤ 5) := by
  refine ⟨fun p c e => ⟨fun h => ?_, fun h => ?_, fun h1 h2 => ?_, adjust_difficulty_bounds p c e⟩,
    by simp [EvolutionPolicy.adjust_difficulty], by norm_num [EvolutionPolicy.adjust_difficulty],
    by norm_num [EvolutionPolicy.adjust_difficulty], fun c ems => ?_⟩
  · unfold EvolutionPolicy.adjust_difficulty
    rw [if_pos h]
  · have h2 : ¬ (82 / 100 : ℚ) ≤ e := by
      intro hc
      have : (62 / 100 : ℚ) < 82 / 100 := by norm_num
      linarith
    unfold EvolutionPolicy.adjust_difficulty
    rw [if_neg h2, if_pos h]
  · unfold EvolutionPolicy.adjust_difficulty
    rw [if_neg (not_le.mpr h2), if_neg (not_le.mpr h1)]
  · induction ems generalizing c with
    | nil => exact fun hc1 hc5 => ⟨hc1, hc5⟩
    | cons e ems ih =>
        intro hc1 hc5
        simp only [List.foldl_cons]
        exact ih _ (adjust_difficulty_bounds {} c e (by norm_num)).1
          (adjust_difficulty_bounds {} c e (by norm_num)).2

/-- C7 witness: the concrete cases instantiated through the theorem. -/
theorem C7_witness :
    EvolutionPolicy.adjust_difficulty {} 3 (82 / 100) = max 1 (min 5 (3 + 1))
    ∧ (1 : ℤ) ≤ [(82 : ℚ) / 100, 9 / 10].foldl
        (fun d e => EvolutionPolicy.adjust_difficulty {} d e) 3
    ∧ [(82 : ℚ) / 100, 9 / 10].foldl
        (fun d e => EvolutionPolicy.adjust_difficulty {} d e) 3 ≤ 5 :=
  ⟨(C7_adjust_difficulty.1 {} 3 (82 / 100)).1 (by norm_num),
   (C7_adjust_difficulty.2.2.2.2 3 [82 / 100, 9 / 10] (by norm_num) (by norm_num)).1,
   (C7_adjust_difficulty.2.2.2.2 3 [82 / 100, 9 / 10] (by norm_num) (by norm_num)).2⟩

/-- C10: if the smoothing factor and every input lie in `[0, 1]`, every
value stored (and returned) by the trend estimator lies in `[0, 1]`. -/
theorem C10_ema_bounded (a : ℚ) (xs : List ℚ) (v0 : Option ℚ)
    (ha0 : 0 ≤ a) (ha1 : a ≤ 1)
    (hv0 : ∀ v, v0 = some v → 0 ≤ v ∧ v ≤ 1)
    (hxs : ∀ x ∈ xs, 0 ≤ x ∧ x ≤ 1) :
    ∀ v, (runEMA ⟨a, v0⟩ xs).value = some v → 0 ≤ v ∧ v ≤ 1 := by
  induction xs generalizing v0 with
  | nil => exact fun v hv => hv0 v hv
  | cons x xs ih =>
      have hx := hxs x (List.mem_cons_self x xs)
      have hxs' : ∀ y ∈ xs, 0 ≤ y ∧ y ≤ 1 := fun y hy => hxs y (List.mem_cons_of_mem x hy)
      have hstep : runEMA ⟨a, v0⟩ (x :: xs)
          = runEMA ((EMAScore.update ⟨a, v0⟩ x).2) xs := by
        simp [runEMA]
      rw [hstep]
      cases v0 with
      | none =>
          exact ih (some x) (fun v hv => by
            simp [EMAScore.update] at hv
            simpa [← hv] using hx) hxs'
      | some w =>
          have hw := hv0 w rfl
          refine ih (some (a * x + (1 - a) * w)) (fun v hv => ?_) hxs'
          simp [EMAScore.update] at hv
          constructor
          · nlinarith [hv, hx.1, hw.1]
          · nlinarith [hv, hx.2, hw.2]

/-! ## C8: add-then-check -/

/-- C8 counterexample: on a filter of capacity `0`, the insertion evicts
the inserted text itself and discards its fingerprint, so immediately
after `add` the same text is accepted as novel instead of being rejected
as an exact duplicate. -/
theorem C8_counterexample :
    NoveltyFilter.is_novel simZero ((initNF 1 0).add "aa") "aa"
      = (true, { hash_dup := false, max_sim := 0, sim_to_index := none }) := by
  decide

/-- C8 amended: immediately after `add t`, a novelty check of `t` rejects
with an exact-duplicate info of maximal similarity, for every similarity
oracle, provided the insertion did not evict an entry carrying the same
fingerprint as `t` (in particular whenever the history was below
capacity). -/
theorem C8_add_then_is_novel (simFn : List String → String → List ℚ)
    (f : NoveltyFilter) (t : String)
    (hsafe : f.max_history < f.texts.length + 1 →
      text_hash ((f.texts ++ [t]).headI) ≠ text_hash t) :
    (f.add t).is_novel simFn t
      = (false, { hash_dup := true, max_sim := 1, sim_to_index := none }) := by
  have hmem : text_hash t ∈ (f.add t).hashes := by
    unfold NoveltyFilter.add
    dsimp only
    by_cases hc : (f.texts ++ [t]).length > f.max_history
    · rw [if_pos hc]
      refine Finset.mem_erase.mpr ⟨?_, Finset.mem_insert_self _ _⟩
      have hne := hsafe (by simpa using hc)
      exact fun he => hne he.symm
    · rw [if_neg hc]
      exact Finset.mem_insert_self _ _
  unfold NoveltyFilter.is_novel
  rw [if_pos hmem]

/-- C8 witness: the amended statement instantiated on a fresh filter of
capacity `5000` and the text `"aa"`. -/
theorem C8_witness :
    ((initNF 1 5000).max_history < (initNF 1 5000).texts.length + 1 →
      text_hash (((initNF 1 5000).texts ++ ["aa"]).headI) ≠ text_hash "aa")
    ∧ ((initNF 1 5000).add "aa").is_novel simZero "aa"
      = (false, { hash_dup := true, max_sim := 1, sim_to_index := none }) :=
  ⟨by decide, C8_add_then_is_novel simZero (initNF 1 5000) "aa" (by decide)⟩

/-! ## C1: retry exhaustion -/

/-- C1 counterexample: seeding one question and offering a duplicate twice
with a retry budget of `2`, the final candidate `"bb"` is returned with
`forced = true`, but the filter state is returned unchanged: the final
candidate fingerprint is not registered, and a subsequent novelty check
of the same text accepts it instead of reporting an exact duplicate. -/
theorem C1_counterexample :
    generate_novel_question simZero (fun i => if i < 2 then "aa" else "bb")
        ((initNF 1 5000).add "aa") 2
      = ("bb",
         { forced := true,
           info := some { hash_dup := true, max_sim := 1, sim_to_index := none } },
         (initNF 1 5000).add "aa")
    ∧ text_hash "bb" ∉ ((initNF 1 5000).add "aa").hashes
    ∧ (((initNF 1 5000).add "aa").is_novel simZero "bb").1 = true := by
  refine ⟨?_, by decide, ?_⟩
  · decide
  · decide

/-- Unrolling the retry loop when every candidate within the budget is
rejected: the loop returns the candidate generated after the budget with
`forced = true`, the info of the last rejection, and the unchanged
filter state. -/
lemma genNovelGo_all_rejected (simFn : List String → String → List ℚ)
    (cand : ℕ → String) (f : NoveltyFilter) :
    ∀ (fuel i : ℕ) (last : Option NovInfo),
      (∀ j < fuel, (f.is_novel simFn (pyStrip (cand (i + j)))).1 = false) →
      genNovelGo simFn cand f i last fuel
        = (cand (i + fuel),
           { forced := true,
             info := if fuel = 0 then last
               else some (f.is_novel simFn (pyStrip (cand (i + fuel - 1)))).2 },
           f)
  | 0, i, last => by
      intro _
      simp [genNovelGo]
  | fuel + 1, i, last => by
      intro hrej
      have h0 : (f.is_novel simFn (pyStrip (cand i))).1 = false := by
        simpa using hrej 0 (Nat.succ_pos fuel)
      rw [show genNovelGo simFn cand f i last (fuel + 1)
          = genNovelGo simFn cand f (i + 1)
              (some (f.is_novel simFn (pyStrip (cand i))).2) fuel by
        simp [genNovelGo, h0]]
      rw [genNovelGo_all_rejected simFn cand f fuel (i + 1)
        (some (f.is_novel simFn (pyStrip (cand i))).2)
        (fun j hj => by
          have := hrej (j + 1) (by omega)
          simpa [Nat.add_assoc, Nat.add_comm 1 j] using this)]
      cases fuel with
      | zero => simp
      | succ m =>
          have e1 : i + 1 + (m + 1) = i + (m + 1 + 1) := by omega
          have e2 : i + 1 + (m + 1) - 1 = i + (m + 1 + 1) - 1 := by omega
          simp [e1, e2]

/-- C1 amended: when all `max_regen` candidates are rejected, the
orchestrator generates one final candidate and returns it with
`forced = true` and the last rejection info, but does not register it in
the similarity index: the filter state is returned unchanged. -/
theorem C1_forced (simFn : List String → String → List ℚ)
    (cand : ℕ → String) (f : NoveltyFilter) (n : ℕ)
    (hrej : ∀ j < n, (f.is_novel simFn (pyStrip (cand j))).1 = false)
    (hn : 0 < n) :
    generate_novel_question simFn cand f n
      = (cand n,
         { forced := true,
           info := some (f.is_novel simFn (pyStrip (cand (n - 1)))).2 },
         f) := by
  unfold generate_novel_question
  rw [genNovelGo_all_rejected simFn cand f n 0 none (fun j hj => by simpa using hrej j hj)]
  rw [if_neg (Nat.pos_iff_ne_zero.mp hn)]
  simp

/-- C1 witness: the amended statement instantiated on the concrete
duplicate-generating stream with budget `2`. -/
theorem C1_witness :
    generate_novel_question simZero (fun i => if i < 2 then "aa" else "bb")
        ((initNF 1 5000).add "aa") 2
      = ("bb",
         { forced := true,
           info := some ((((initNF 1 5000).add "aa").is_novel simZero
             (pyStrip ((fun i : ℕ => if i < 2 then "aa" else "bb") 1))).2) },
         (initNF 1 5000).add "aa") :=
  C1_forced simZero (fun i => if i < 2 then "aa" else "bb")
    ((initNF 1 5000).add "aa") 2 (by decide) (by decide)

/-! ## C2: similarity-index invariant -/

/-- The capacity field is untouched by an insertion. -/
lemma add_max_history (f : NoveltyFilter) (q : String) :
    (f.add q).max_history = f.max_history := by
  unfold NoveltyFilter.add
  dsimp only
  split <;> rfl

/-- The threshold field is untouched by an insertion. -/
lemma add_max_sim (f : NoveltyFilter) (q : String) :
    (f.add q).max_sim = f.max_sim := by
  unfold NoveltyFilter.add
  dsimp only
  split <;> rfl

/-- The history after an insertion is a sublist of the old history with
the new text appended. -/
lemma add_texts_sublist (f : NoveltyFilter) (q : String) :
    (f.add q).texts.Sublist (f.texts ++ [q]) := by
  unfold NoveltyFilter.add
  dsimp only
  split
  · exact List.tail_sublist _
  · exact List.Sublist.refl _

/-- An insertion keeps the history within capacity. -/
lemma add_texts_length (f : NoveltyFilter) (q : String)
    (h : f.texts.length ≤ f.max_history) :
    (f.add q).texts.length ≤ f.max_history := by
  unfold NoveltyFilter.add
  dsimp only
  split
  · next hc =>
      simp only [List.length_tail, List.length_append, List.length_singleton]
      omega
  · next hc =>
      simpa using Nat.not_lt.mp hc

/-- One insertion preserves the fingerprint-set invariant, provided the
inserted text and the current history have pairwise distinct
fingerprints. -/
lemma add_hashes_inv (f : NoveltyFilter) (q : String)
    (hset : f.hashes = (f.texts.map text_hash).toFinset)
    (hnd : ((f.texts ++ [q]).map text_hash).Nodup) :
    (f.add q).hashes = ((f.add q).texts.map text_hash).toFinset := by
  obtain ⟨msim, mhist, hsh, txts⟩ := f
  dsimp only at hset hnd
  unfold NoveltyFilter.add
  dsimp only
  split
  · next hc =>
      cases txts with
      | nil =>
          simp only [List.nil_append, List.headI, List.tail]
          rw [hset]
          simp
      | cons t0 ts =>
          simp only [List.cons_append, List.headI, List.tail]
          rw [hset]
          have hnd' : (text_hash t0 :: (ts.map text_hash ++ [text_hash q])).Nodup := by
            simpa using hnd
          have hnd1 := (List.nodup_cons.mp hnd').1
          have ht0ts : text_hash t0 ∉ ts.map text_hash := fun hm =>
            hnd1 (List.mem_append_left _ hm)
          have ht0q : text_hash q ≠ text_hash t0 := fun he =>
            hnd1 (List.mem_append_right _ (by simp [he]))
          have hR : ((ts ++ [q]).map text_hash).toFinset
              = insert (text_hash q) (ts.map text_hash).toFinset := by
            ext a
            simp only [List.mem_toFinset, List.map_append, List.mem_append,
              List.map_cons, List.map_nil, List.mem_singleton, Finset.mem_insert]
            tauto
          rw [hR, List.map_cons, List.toFinset_cons,
            Finset.erase_insert_of_ne ht0q,
            Finset.erase_insert (by simpa using ht0ts)]
  · next hc =>
      rw [hset]
      ext a
      simp only [Finset.mem_insert, List.map_append, List.toFinset_append,
        Finset.mem_union, List.mem_toFinset, List.map_cons, List.map_nil]
      simp [or_comm]

/-- Folding a list of insertions preserves the similarity-index
invariant, provided the current history and all texts to be inserted have
pairwise distinct fingerprints. -/
lemma foldl_add_inv : ∀ (qs : List String) (f : NoveltyFilter),
    f.texts.length ≤ f.max_history →
    f.hashes = (f.texts.map text_hash).toFinset →
    ((f.texts ++ qs).map text_hash).Nodup →
    (qs.foldl NoveltyFilter.add f).max_history = f.max_history
    ∧ ((qs.foldl NoveltyFilter.add f).texts).Sublist (f.texts ++ qs)
    ∧ (qs.foldl NoveltyFilter.add f).texts.length ≤ f.max_history
    ∧ (qs.foldl NoveltyFilter.add f).hashes
        = (((qs.foldl NoveltyFilter.add f).texts).map text_hash).toFinset
  | [], f => by
      intro h1 h2 _
      exact ⟨rfl, by simp, h1, h2⟩
  | q :: qs, f => by
      intro h1 h2 h3
      have hsub1 : (f.texts ++ [q] ++ qs).Sublist (f.texts ++ (q :: qs)) := by
        rw [List.append_assoc]
        exact List.Sublist.refl _
      have hnd_step : ((f.texts ++ [q]).map text_hash).Nodup := by
        refine List.Nodup.sublist (List.Sublist.map _ ?_) h3
        exact (List.sublist_append_left _ qs).trans hsub1
      have hmh := add_max_history f q
      have hts := add_texts_sublist f q
      have hlen := add_texts_length f q h1
      have hhs := add_hashes_inv f q h2 hnd_step
      have hnd' : (((f.add q).texts ++ qs).map text_hash).Nodup := by
        refine List.Nodup.sublist (List.Sublist.map _ ?_) h3
        exact ((hts.append_right qs).trans hsub1)
      have ih := foldl_add_inv qs (f.add q) (hmh ▸ hlen) hhs hnd'
      refine ⟨ih.1.trans hmh, ?_, hmh ▸ ih.2.2.1, ih.2.2.2⟩
      simp only [List.foldl_cons]
      exact (ih.2.1.trans (hts.append_right qs)).trans hsub1

/-- Applying one filter operation is folding its inserted texts. -/
lemma applyNFOp_eq (f : NoveltyFilter) (op : NFOp) :
    applyNFOp f op = (opAdds f.max_history op).foldl NoveltyFilter.add f := by
  cases op with
  | seed qs => rfl
  | add q => rfl

/-- Running a sequence of filter operations preserves the
similarity-index invariant, provided the current history and all texts
inserted along the way have pairwise distinct fingerprints. -/
lemma runNFOps_inv : ∀ (ops : List NFOp) (f : NoveltyFilter),
    f.texts.length ≤ f.max_history →
    f.hashes = (f.texts.map text_hash).toFinset →
    ((f.texts ++ addedTexts f.max_history ops).map text_hash).Nodup →
    (runNFOps f ops).max_history = f.max_history
    ∧ (runNFOps f ops).texts.Sublist (f.texts ++ addedTexts f.max_history ops)
    ∧ (runNFOps f ops).texts.length ≤ f.max_history
    ∧ (runNFOps f ops).hashes = ((runNFOps f ops).texts.map text_hash).toFinset
  | [], f => by
      intro h1 h2 _
      exact ⟨rfl, by simp [runNFOps, addedTexts], h1, h2⟩
  | op :: ops, f => by
      intro h1 h2 h3
      have hadd : addedTexts f.max_history (op :: ops)
          = opAdds f.max_history op ++ addedTexts f.max_history ops := by
        simp [addedTexts]
      rw [hadd] at h3
      have hsub1 : (f.texts ++ opAdds f.max_history op ++ addedTexts f.max_history ops).Sublist
          (f.texts ++ (opAdds f.max_history op ++ addedTexts f.max_history ops)) := by
        rw [List.append_assoc]
      have hnd_step : ((f.texts ++ opAdds f.max_history op).map text_hash).Nodup := by
        refine List.Nodup.sublist (List.Sublist.map _ ?_) h3
        exact (List.sublist_append_left _ _).trans hsub1
      have hstep := foldl_add_inv (opAdds f.max_history op) f h1 h2 hnd_step
      rw [← applyNFOp_eq f op] at hstep
      have hmh := hstep.1
      have hnd' : (((applyNFOp f op).texts
          ++ addedTexts (applyNFOp f op).max_history ops).map text_hash).Nodup := by
        rw [hmh]
        refine List.Nodup.sublist (List.Sublist.map _ ?_) h3
        exact ((hstep.2.1.append_right _).trans hsub1)
      have ih := runNFOps_inv ops (applyNFOp f op) (hmh ▸ hstep.2.2.1) hstep.2.2.2 hnd'
      have hrun : runNFOps f (op :: ops) = runNFOps (applyNFOp f op) ops := rfl
      rw [hrun, hadd]
      refine ⟨ih.1.trans hmh, ?_, hmh ▸ ih.2.2.1, ih.2.2.2⟩
      have := ih.2.1
      rw [hmh] at this
      exact (this.trans (hstep.2.1.append_right _)).trans hsub1

/-- C2 counterexample: on a capacity-2 filter, adding the same text twice
and then a third text evicts one copy of the duplicate and discards its
fingerprint although an identical text is still in the history, so the
fingerprint set is no longer the image of the stored history. -/
theorem C2_counterexample :
    (runNFOps (initNF 1 2) [NFOp.add "a", NFOp.add "a", NFOp.add "b"]).hashes
      ≠ ((runNFOps (initNF 1 2)
          [NFOp.add "a", NFOp.add "a", NFOp.add "b"]).texts.map text_hash).toFinset := by
  decide

/-- C2 amended: for sequences of seed and add operations in which the
inserted texts (together with a further text `q`) have pairwise distinct
fingerprints, the history stays within capacity, the fingerprint set is
exactly the image of the history under the fingerprint function, a
further insertion stays within capacity, and when that insertion
overflows a non-empty history, the oldest entry is popped, the new text
is appended, and the evicted fingerprint is no longer found. -/
theorem C2_invariant (τ : ℚ) (C : ℕ) (ops : List NFOp) (q : String)
    (hnd : ((addedTexts C ops ++ [q]).map text_hash).Nodup) :
    (runNFOps (initNF τ C) ops).texts.length ≤ C
    ∧ (runNFOps (initNF τ C) ops).hashes
        = ((runNFOps (initNF τ C) ops).texts.map text_hash).toFinset
    ∧ ((runNFOps (initNF τ C) ops).add q).texts.length ≤ C
    ∧ (C < (runNFOps (initNF τ C) ops).texts.length + 1 →
        (runNFOps (initNF τ C) ops).texts ≠ [] →
        ((runNFOps (initNF τ C) ops).add q).texts
            = (runNFOps (initNF τ C) ops).texts.tail ++ [q]
          ∧ text_hash (runNFOps (initNF τ C) ops).texts.headI
              ∉ ((runNFOps (initNF τ C) ops).add q).hashes) := by
  have hnd0 : (((initNF τ C).texts ++ addedTexts (initNF τ C).max_history ops).map
      text_hash).Nodup := by
    refine List.Nodup.sublist (List.Sublist.map _ ?_) hnd
    simp only [initNF, List.nil_append]
    exact List.sublist_append_left _ _
  have hinv := runNFOps_inv ops (initNF τ C) (by simp [initNF]) (by simp [initNF]) hnd0
  have hC : (runNFOps (initNF τ C) ops).max_history = C := hinv.1
  refine ⟨hinv.2.2.1, hinv.2.2.2, ?_, fun hover hne => ⟨?_, ?_⟩⟩
  · have hb : (runNFOps (initNF τ C) ops).texts.length
        ≤ (runNFOps (initNF τ C) ops).max_history := by
      rw [hC]
      exact hinv.2.2.1
    have hb2 := add_texts_length (runNFOps (initNF τ C) ops) q hb
    rw [hC] at hb2
    exact hb2
  · unfold NoveltyFilter.add
    dsimp only
    rw [if_pos (by simp only [List.length_append, List.length_singleton]; omega)]
    cases hts : (runNFOps (initNF τ C) ops).texts with
    | nil => exact absurd hts hne
    | cons t0 ts => simp
  · unfold NoveltyFilter.add
    dsimp only
    rw [if_pos (by simp only [List.length_append, List.length_singleton]; omega)]
    cases hts : (runNFOps (initNF τ C) ops).texts with
    | nil => exact absurd hts hne
    | cons t0 ts =>
        simp only [List.cons_append, List.headI]
        exact Finset.not_mem_erase _ _

/-- C2 witness: the amended statement instantiated on a capacity-2 filter
seeded with two texts and a further insertion that forces an eviction. -/
theorem C2_witness :
    (runNFOps (initNF 1 2) [NFOp.seed ["x", "y"]]).texts.length ≤ 2
    ∧ (runNFOps (initNF 1 2) [NFOp.seed ["x", "y"]]).hashes
        = ((runNFOps (initNF 1 2) [NFOp.seed ["x", "y"]]).texts.map text_hash).toFinset
    ∧ ((runNFOps (initNF 1 2) [NFOp.seed ["x", "y"]]).add "z").texts.length ≤ 2
    ∧ ((runNFOps (initNF 1 2) [NFOp.seed ["x", "y"]]).add "z").texts
        = (runNFOps (initNF 1 2) [NFOp.seed ["x", "y"]]).texts.tail ++ ["z"]
    ∧ text_hash (runNFOps (initNF 1 2) [NFOp.seed ["x", "y"]]).texts.headI
        ∉ ((runNFOps (initNF 1 2) [NFOp.seed ["x", "y"]]).add "z").hashes := by
  have h := C2_invariant 1 2 [NFOp.seed ["x", "y"]] "z" (by decide)
  have hev := h.2.2.2 (by decide) (by decide)
  exact ⟨h.1, h.2.1, h.2.2.1, hev.1, hev.2⟩

/-! ## C5: focus-tag ranking -/

/-- Ranking order of the frequency sort: higher count first, ties ordered
by the position function (first-seen position). -/
def rankLt (cnt idx : String → ℕ) (a b : String) : Prop :=
  cnt b < cnt a ∨ (cnt a = cnt b ∧ idx a < idx b)

/-- Membership in the first-seen list is membership in the stream. -/
lemma mem_firstSeen : ∀ (l : List String) (a : String), a ∈ firstSeen l ↔ a ∈ l
  | [], a => by simp [firstSeen]
  | x :: xs, a => by
      simp only [firstSeen, List.mem_cons, List.mem_filter, decide_eq_true_eq]
      rw [show ∀ P Q R : Prop, (P ∨ Q ∧ R) ↔ (P ∨ Q ∧ R) from fun _ _ _ => Iff.rfl]
      constructor
      · rintro (rfl | ⟨hm, _⟩)
        · exact Or.inl rfl
        · exact Or.inr ((mem_firstSeen xs a).mp hm)
      · rintro (rfl | hm)
        · exact Or.inl rfl
        · by_cases hax : a = x
          · exact Or.inl hax
          · exact Or.inr ⟨(mem_firstSeen xs a).mpr hm, hax⟩

/-- The first-seen list has no duplicates. -/
lemma nodup_firstSeen : ∀ l : List String, (firstSeen l).Nodup
  | [] => List.nodup_nil
  | x :: xs => by
      rw [firstSeen]
      refine List.nodup_cons.mpr ⟨?_, ?_⟩
      · intro hx
        have := (List.mem_filter.mp hx).2
        simp at this
      · exact (nodup_firstSeen xs).filter _

/-- The first-seen list is strictly ordered by position of first
occurrence in the stream. -/
lemma firstSeen_indexOf_sorted :
    ∀ l : List String, (firstSeen l).Pairwise (fun a b => l.indexOf a < l.indexOf b)
  | [] => List.Pairwise.nil
  | x :: xs => by
      rw [firstSeen]
      refine List.pairwise_cons.mpr ⟨?_, ?_⟩
      · intro b hb
        have hbne : b ≠ x := by
          have := (List.mem_filter.mp hb).2
          simpa using this
        rw [List.indexOf_cons_self, List.indexOf_cons_ne _ (Ne.symm hbne)]
        exact Nat.succ_pos _
      · have hp := (firstSeen_indexOf_sorted xs).sublist
          (@List.filter_sublist String (fun y => decide (y ≠ x)) (firstSeen xs))
        refine hp.imp_of_mem ?_
        intro a b ha hb hab
        have hane : a ≠ x := by simpa using (List.mem_filter.mp ha).2
        have hbne : b ≠ x := by simpa using (List.mem_filter.mp hb).2
        rw [List.indexOf_cons_ne _ (Ne.symm hane), List.indexOf_cons_ne _ (Ne.symm hbne)]
        exact Nat.succ_lt_succ hab

/-- The stable insertion step permutes the inserted element in. -/
lemma insertDesc_perm (cnt : String → ℕ) (x : String) :
    ∀ l : List String, (insertDesc cnt x l).Perm (x :: l)
  | [] => List.Perm.refl _
  | y :: ys => by
      rw [insertDesc]
      split
      · exact List.Perm.refl _
      · exact ((insertDesc_perm cnt x ys).cons y).trans (List.Perm.swap x y ys)

/-- The stable sort permutes its input. -/
lemma sortDesc_perm (cnt : String → ℕ) :
    ∀ l : List String, (sortDesc cnt l).Perm l
  | [] => List.Perm.refl _
  | x :: xs =>
      (insertDesc_perm cnt x (sortDesc cnt xs)).trans ((sortDesc_perm cnt xs).cons x)

/-- Inserting an element whose position precedes every element of a
ranked list keeps the list ranked. -/
lemma insertDesc_pairwise (cnt idx : String → ℕ) (x : String) :
    ∀ l : List String, l.Pairwise (rankLt cnt idx) →
      (∀ y ∈ l, idx x < idx y) →
      (insertDesc cnt x l).Pairwise (rankLt cnt idx)
  | [], _, _ => List.pairwise_cons.mpr ⟨by simp, List.Pairwise.nil⟩
  | y :: ys, h1, h2 => by
      rw [insertDesc]
      split
      · next hcnt =>
          refine List.pairwise_cons.mpr ⟨?_, h1⟩
          intro z hz
          rcases List.mem_cons.mp hz with rfl | hz'
          · rcases Nat.lt_or_ge (cnt z) (cnt x) with hlt | hge
            · exact Or.inl hlt
            · exact Or.inr ⟨Nat.le_antisymm hge hcnt, h2 z (List.mem_cons_self _ _)⟩
          · have hyz := (List.pairwise_cons.mp h1).1 z hz'
            rcases Nat.lt_or_ge (cnt z) (cnt x) with hlt | hge
            · exact Or.inl hlt
            · refine Or.inr ⟨?_, h2 z (List.mem_cons_of_mem _ hz')⟩
              rcases hyz with hyz | hyz
              · omega
              · omega
      · next hcnt =>
          refine List.pairwise_cons.mpr ⟨?_, ?_⟩
          · intro z hz
            rcases List.mem_cons.mp ((insertDesc_perm cnt x ys).mem_iff.mp hz) with rfl | hz'
            · exact Or.inl (Nat.lt_of_not_le hcnt)
            · exact (List.pairwise_cons.mp h1).1 z hz'
          · exact insertDesc_pairwise cnt idx x ys (List.pairwise_cons.mp h1).2
              (fun y' hy' => h2 y' (List.mem_cons_of_mem _ hy'))

/-- The stable sort of a list strictly ordered by position is ranked:
counts descend, and equal counts stay in position order. -/
lemma sortDesc_pairwise (cnt idx : String → ℕ) :
    ∀ l : List String, l.Pairwise (fun a b => idx a < idx b) →
      (sortDesc cnt l).Pairwise (rankLt cnt idx)
  | [], _ => List.Pairwise.nil
  | x :: xs, h => by
      rw [sortDesc]
      refine insertDesc_pairwise cnt idx x _
        (sortDesc_pairwise cnt idx xs (List.pairwise_cons.mp h).2) ?_
      intro y hy
      exact (List.pairwise_cons.mp h).1 y ((sortDesc_perm cnt xs).mem_iff.mp hy)

/-- C5: the focus tags returned by `next_focus` are the truncation to the
top `k` of the ranking of the distinct error tags of the recency window:
a permutation of the distinct tags in first-seen order, sorted by
frequency descending with ties in first-seen order. -/
theorem C5_next_focus_tags (p : EvolutionPolicy) (hist : List EvalEntry) :
    ∃ L : List String,
      (p.next_focus hist).2 = L.take p.focus_top_k_tags
      ∧ L.Perm (firstSeen (tagStream p hist))
      ∧ L.Pairwise (rankLt (fun t => (tagStream p hist).count t)
          (fun t => (tagStream p hist).indexOf t))
      ∧ (∀ t, t ∈ firstSeen (tagStream p hist) ↔ t ∈ tagStream p hist)
      ∧ (firstSeen (tagStream p hist)).Nodup :=
  ⟨sortDesc (fun t => (tagStream p hist).count t) (firstSeen (tagStream p hist)),
    rfl,
    sortDesc_perm _ _,
    sortDesc_pairwise _ _ _ (firstSeen_indexOf_sorted _),
    fun t => mem_firstSeen _ t,
    nodup_firstSeen _⟩

/-! ## C6: grader-reply normalization -/

/-- Lookup skips a head entry with a different key. -/
lemma jLookup_cons_ne (p : String × JsonVal) (l : List (String × JsonVal)) (k : String)
    (h : (p.1 == k) = false) : jLookup (p :: l) k = jLookup l k := by
  unfold jLookup
  rw [List.find?_cons_of_neg _ (by simp [h])]

/-- Lookup returns the value of a head entry with a matching key. -/
lemma jLookup_cons_eq (p : String × JsonVal) (l : List (String × JsonVal)) (k : String)
    (h : (p.1 == k) = true) : jLookup (p :: l) k = some p.2 := by
  unfold jLookup
  rw [List.find?_cons_of_pos _ (by exact h)]
  rfl

/-- A `setdefault` on a field list whose head key matches does nothing. -/
lemma jSetdefault_cons_eq (p : String × JsonVal) (ps : List (String × JsonVal))
    (k : String) (v : JsonVal) (h : (p.1 == k) = true) :
    jSetdefault (p :: ps) k v = p :: ps := by
  unfold jSetdefault
  rw [List.find?_cons_of_pos _ (by exact h)]
  rfl

/-- A `setdefault` on a field list whose head key differs keeps the head
and recurses structurally. -/
lemma jSetdefault_cons_ne (p : String × JsonVal) (ps : List (String × JsonVal))
    (k : String) (v : JsonVal) (h : (p.1 == k) = false) :
    jSetdefault (p :: ps) k v = p :: jSetdefault ps k v := by
  unfold jSetdefault
  rw [List.find?_cons_of_neg _ (by simp [h])]
  split
  · rfl
  · rfl

/-- An in-place assignment rewrites a matching head entry. -/
lemma jUpdate_cons_eq (p : String × JsonVal) (ps : List (String × JsonVal))
    (k : String) (v : JsonVal) (h : (p.1 == k) = true) :
    jUpdate (p :: ps) k v = (p.1, v) :: jUpdate ps k v := by
  unfold jUpdate
  rw [List.map_cons]
  congr 1
  rw [if_pos h]

/-- An in-place assignment keeps a head entry with a different key. -/
lemma jUpdate_cons_ne (p : String × JsonVal) (ps : List (String × JsonVal))
    (k : String) (v : JsonVal) (h : (p.1 == k) = false) :
    jUpdate (p :: ps) k v = p :: jUpdate ps k v := by
  unfold jUpdate
  rw [List.map_cons]
  congr 1
  rw [if_neg (by simp [h])]

/-- Lookup after `setdefault` at the same key: the old value if present,
otherwise the default. -/
lemma jLookup_setdefault_self : ∀ (fs : List (String × JsonVal)) (k : String) (v : JsonVal),
    jLookup (jSetdefault fs k v) k = some ((jLookup fs k).getD v)
  | [], k, v => by
      simp [jSetdefault, jLookup, List.find?]
  | p :: ps, k, v => by
      by_cases hp : (p.1 == k) = true
      · rw [jSetdefault_cons_eq p ps k v hp, jLookup_cons_eq p ps k hp]
        rfl
      · have hp' : (p.1 == k) = false := by simpa using hp
        rw [jSetdefault_cons_ne p ps k v hp', jLookup_cons_ne p _ k hp',
          jLookup_cons_ne p ps k hp']
        exact jLookup_setdefault_self ps k v

/-- Lookup after `setdefault` at a different key is unchanged. -/
lemma jLookup_setdefault_ne : ∀ (fs : List (String × JsonVal)) (k k' : String) (v : JsonVal),
    k ≠ k' → jLookup (jSetdefault fs k v) k' = jLookup fs k'
  | [], k, k', v => by
      intro h
      have hk : ((k, v).1 == k') = false := by simpa using h
      show jLookup ([] ++ [(k, v)]) k' = jLookup [] k'
      rw [List.nil_append, jLookup_cons_ne (k, v) [] k' hk]
  | p :: ps, k, k', v => by
      intro h
      by_cases hp : (p.1 == k) = true
      · rw [jSetdefault_cons_eq p ps k v hp]
      · have hp' : (p.1 == k) = false := by simpa using hp
        rw [jSetdefault_cons_ne p ps k v hp']
        by_cases hq : (p.1 == k') = true
        · rw [jLookup_cons_eq p _ k' hq, jLookup_cons_eq p ps k' hq]
        · have hq' : (p.1 == k') = false := by simpa using hq
          rw [jLookup_cons_ne p _ k' hq', jLookup_cons_ne p ps k' hq']
          exact jLookup_setdefault_ne ps k k' v h

/-- Lookup after an in-place value assignment at the same key, when the
key is present. -/
lemma jLookup_update_self : ∀ (fs : List (String × JsonVal)) (k : String) (v : JsonVal),
    (jLookup fs k).isSome → jLookup (jUpdate fs k v) k = some v
  | [], k, v => by
      simp [jLookup, List.find?]
  | p :: ps, k, v => by
      intro hs
      by_cases hp : (p.1 == k) = true
      · rw [jUpdate_cons_eq p ps k v hp, jLookup_cons_eq (p.1, v) _ k hp]
      · have hp' : (p.1 == k) = false := by simpa using hp
        rw [jUpdate_cons_ne p ps k v hp', jLookup_cons_ne p _ k hp']
        rw [jLookup_cons_ne p ps k hp'] at hs
        exact jLookup_update_self ps k v hs

/-- Lookup after an in-place value assignment at a different key is
unchanged. -/
lemma jLookup_update_ne : ∀ (fs : List (String × JsonVal)) (k k' : String) (v : JsonVal),
    k ≠ k' → jLookup (jUpdate fs k v) k' = jLookup fs k'
  | [], k, k', v => fun _ => rfl
  | p :: ps, k, k', v => by
      intro h
      by_cases hp : (p.1 == k) = true
      · have hpk : p.1 = k := by simpa using hp
        have hq' : (p.1 == k') = false := by
          simp only [beq_eq_false_iff_ne, ne_eq, hpk]
          exact h
        rw [jUpdate_cons_eq p ps k v hp, jLookup_cons_ne (p.1, v) _ k' hq',
          jLookup_cons_ne p ps k' hq']
        exact jLookup_update_ne ps k k' v h
      · have hp' : (p.1 == k) = false := by simpa using hp
        rw [jUpdate_cons_ne p ps k v hp']
        by_cases hq : (p.1 == k') = true
        · rw [jLookup_cons_eq p _ k' hq, jLookup_cons_eq p ps k' hq]
        · have hq' : (p.1 == k') = false := by simpa using hq
          rw [jLookup_cons_ne p _ k' hq', jLookup_cons_ne p ps k' hq']
          exact jLookup_update_ne ps k k' v h

/-- Lookup through a value-mapping of the field list. -/
lemma jLookup_mapVal (g : JsonVal → JsonVal) :
    ∀ (fs : List (String × JsonVal)) (k : String),
      jLookup (fs.map (fun p => (p.1, g p.2))) k = (jLookup fs k).map g
  | [], k => rfl
  | p :: ps, k => by
      by_cases hp : (p.1 == k) = true
      · rw [List.map_cons, jLookup_cons_eq (p.1, g p.2) _ k hp, jLookup_cons_eq p ps k hp]
        rfl
      · have hp' : (p.1 == k) = false := by simpa using hp
        rw [List.map_cons, jLookup_cons_ne (p.1, g p.2) _ k hp', jLookup_cons_ne p ps k hp']
        exact jLookup_mapVal g ps k

/-- The clamp of `Evaluator.evaluate` always lands in `[0, 1]`. -/
lemma clampJ_bounds (strF : String → Option ℚ) (j : JsonVal) :
    0 ≤ clampJ strF j ∧ clampJ strF j ≤ 1 := by
  unfold clampJ
  cases jFloat strF j with
  | none => exact ⟨le_refl 0, by norm_num⟩
  | some x =>
      exact ⟨le_max_left 0 _, max_le (by norm_num) (min_le_left 1 x)⟩

/-- Every defaulted subscore key is present after the five `setdefault`
calls. -/
lemma defaultSubs_keys (sfs0 : List (String × JsonVal)) :
    ∀ k ∈ (["correctness", "completeness", "reasoning_quality",
        "format_compliance", "safety"] : List String),
      (jLookup (defaultSubs sfs0) k).isSome := by
  intro k hk
  unfold defaultSubs
  simp only [List.mem_cons, List.mem_singleton, List.not_mem_nil, or_false] at hk
  rcases hk with rfl | rfl | rfl | rfl | rfl
  · rw [jLookup_setdefault_ne _ _ _ _ (by decide), jLookup_setdefault_ne _ _ _ _ (by decide),
      jLookup_setdefault_ne _ _ _ _ (by decide), jLookup_setdefault_ne _ _ _ _ (by decide),
      jLookup_setdefault_self]
    rfl
  · rw [jLookup_setdefault_ne _ _ _ _ (by decide), jLookup_setdefault_ne _ _ _ _ (by decide),
      jLookup_setdefault_ne _ _ _ _ (by decide), jLookup_setdefault_self]
    rfl
  · rw [jLookup_setdefault_ne _ _ _ _ (by decide), jLookup_setdefault_ne _ _ _ _ (by decide),
      jLookup_setdefault_self]
    rfl
  · rw [jLookup_setdefault_ne _ _ _ _ (by decide), jLookup_setdefault_self]
    rfl
  · rw [jLookup_setdefault_self]
    rfl

/-- The list check keeps lookups of other keys unchanged. -/
lemma jLookup_fixTags_ne (fs : List (String × JsonVal)) (k : String)
    (h : "error_tags" ≠ k) : jLookup (fixTags fs) k = jLookup fs k := by
  unfold fixTags
  split
  · rfl
  · exact jLookup_update_ne fs "error_tags" k _ h

/-- After the list check, `error_tags` holds a JSON list whenever the key
is present. -/
lemma jLookup_fixTags_tags (fs : List (String × JsonVal))
    (h : (jLookup fs "error_tags").isSome) :
    ∃ xs, jLookup (fixTags fs) "error_tags" = some (JsonVal.arr xs) := by
  unfold fixTags
  split
  · next x heq => exact ⟨x, heq⟩
  · next => exact ⟨[], jLookup_update_self fs "error_tags" _ h⟩

/-- The normalized score is a number in `[0, 1]`. -/
lemma evalNorm_score (strF : String → Option ℚ) (fs0 sfs0 : List (String × JsonVal)) :
    ∃ q, jLookup (evalNormFields strF fs0 sfs0) "score" = some (JsonVal.num q)
      ∧ 0 ≤ q ∧ q ≤ 1 := by
  simp only [evalNormFields]
  rw [jLookup_fixTags_ne _ _ (by decide)]
  rw [jLookup_update_ne _ _ _ _ (by decide)]
  rw [jLookup_update_self _ _ _ (by
    rw [jLookup_setdefault_ne _ _ _ _ (by decide), jLookup_setdefault_ne _ _ _ _ (by decide),
      jLookup_update_ne _ _ _ _ (by decide), jLookup_setdefault_ne _ _ _ _ (by decide),
      jLookup_setdefault_self]
    rfl)]
  exact ⟨_, rfl, (clampJ_bounds strF _).1, (clampJ_bounds strF _).2⟩

/-- The normalized record holds a JSON list under `error_tags`. -/
lemma evalNorm_tags (strF : String → Option ℚ) (fs0 sfs0 : List (String × JsonVal)) :
    ∃ xs, jLookup (evalNormFields strF fs0 sfs0) "error_tags" = some (JsonVal.arr xs) := by
  simp only [evalNormFields]
  refine jLookup_fixTags_tags _ ?_
  rw [jLookup_update_ne _ _ _ _ (by decide), jLookup_update_ne _ _ _ _ (by decide),
    jLookup_setdefault_ne _ _ _ _ (by decide), jLookup_setdefault_self]
  rfl

/-- The normalized record holds a subscore object in which the five
required dimensions are present and every value is a number in `[0, 1]`. -/
lemma evalNorm_subs (strF : String → Option ℚ) (fs0 sfs0 : List (String × JsonVal)) :
    ∃ sfs, jLookup (evalNormFields strF fs0 sfs0) "subscores" = some (JsonVal.obj sfs)
      ∧ (∀ k ∈ (["correctness", "completeness", "reasoning_quality",
          "format_compliance", "safety"] : List String),
          ∃ q, jLookup sfs k = some (JsonVal.num q) ∧ 0 ≤ q ∧ q ≤ 1)
      ∧ (∀ pr ∈ sfs, ∃ q, pr.2 = JsonVal.num q ∧ 0 ≤ q ∧ q ≤ 1) := by
  simp only [evalNormFields]
  rw [jLookup_fixTags_ne _ _ (by decide)]
  rw [jLookup_update_self _ _ _ (by
    rw [jLookup_update_ne _ _ _ _ (by decide), jLookup_setdefault_ne _ _ _ _ (by decide),
      jLookup_setdefault_ne _ _ _ _ (by decide),
      jLookup_update_self _ _ _ (by
        rw [jLookup_setdefault_self]
        rfl)]
    rfl)]
  refine ⟨_, rfl, ?_, ?_⟩
  · intro k hk
    rw [jLookup_mapVal (fun j => JsonVal.num (clampJ strF j))]
    obtain ⟨j, hj⟩ := Option.isSome_iff_exists.mp (defaultSubs_keys sfs0 k hk)
    rw [hj]
    exact ⟨_, rfl, (clampJ_bounds strF j).1, (clampJ_bounds strF j).2⟩
  · intro pr hpr
    rcases List.mem_map.mp hpr with ⟨p0, _, rfl⟩
    exact ⟨_, rfl, (clampJ_bounds strF p0.2).1, (clampJ_bounds strF p0.2).2⟩

/-- C6 counterexample: a grader reply that is valid JSON but not an
object (here the number `5`) makes the normalization raise instead of
producing a record. -/
theorem C6_counterexample :
    isOkE (evaluateNorm strFNone (some (JsonVal.num 5))) = false := by
  rfl

/-- C6 amended: for every grader reply whose extraction result is absent,
falsy, or a JSON object with `subscores` absent or an object, the
normalization succeeds and yields a record whose score is a number in
`[0, 1]`, whose subscores contain the five dimensions with all values
numbers in `[0, 1]`, and whose `error_tags` is a JSON list; and a reply
with nothing extracted normalizes to score `0`, all subscores `0` except
`safety = 1`, and empty `error_tags`. -/
theorem C6_evaluate_normalizes (strF : String → Option ℚ) (extracted : Option JsonVal)
    (hobj : ∃ fs0, orEmptyObj extracted = JsonVal.obj fs0)
    (hsub : ∀ fs0, orEmptyObj extracted = JsonVal.obj fs0 →
      jLookup fs0 "subscores" = none
      ∨ ∃ sfs, jLookup fs0 "subscores" = some (JsonVal.obj sfs)) :
    (∃ r, evaluateNorm strF extracted = Except.ok r
      ∧ (∃ q, jLookup r "score" = some (JsonVal.num q) ∧ 0 ≤ q ∧ q ≤ 1)
      ∧ (∃ sfs, jLookup r "subscores" = some (JsonVal.obj sfs)
          ∧ (∀ k ∈ (["correctness", "completeness", "reasoning_quality",
              "format_compliance", "safety"] : List String),
              ∃ q, jLookup sfs k = some (JsonVal.num q) ∧ 0 ≤ q ∧ q ≤ 1)
          ∧ (∀ pr ∈ sfs, ∃ q, pr.2 = JsonVal.num q ∧ 0 ≤ q ∧ q ≤ 1))
      ∧ (∃ xs, jLookup r "error_tags" = some (JsonVal.arr xs)))
    ∧ evaluateNorm strF none = Except.ok
        [("score", JsonVal.num 0),
         ("subscores", JsonVal.obj
           [("correctness", JsonVal.num 0), ("completeness", JsonVal.num 0),
            ("reasoning_quality", JsonVal.num 0), ("format_compliance", JsonVal.num 0),
            ("safety", JsonVal.num 1)]),
         ("error_tags", JsonVal.arr []),
         ("feedback", JsonVal.str "")] := by
  obtain ⟨fs0, h0⟩ := hobj
  have hS : ∃ S0, jLookup (jSetdefault (jSetdefault fs0 "score" (JsonVal.num 0))
      "subscores" (JsonVal.obj [])) "subscores" = some (JsonVal.obj S0) := by
    rcases hsub fs0 h0 with hn | ⟨sfs, hsf⟩
    · refine ⟨[], ?_⟩
      rw [jLookup_setdefault_self,
        jLookup_setdefault_ne fs0 "score" "subscores" _ (by decide), hn]
      rfl
    · refine ⟨sfs, ?_⟩
      rw [jLookup_setdefault_self,
        jLookup_setdefault_ne fs0 "score" "subscores" _ (by decide), hsf]
      rfl
  obtain ⟨S0, hS0⟩ := hS
  have heval : evaluateNorm strF extracted = Except.ok (evalNormFields strF fs0 S0) := by
    unfold evaluateNorm
    rw [h0]
    dsimp only
    rw [hS0]
  refine ⟨⟨evalNormFields strF fs0 S0, heval,
    evalNorm_score strF fs0 S0, evalNorm_subs strF fs0 S0, evalNorm_tags strF fs0 S0⟩, ?_⟩
  rfl

/-- C6 witness: the amended statement instantiated at a reply with
nothing extracted. -/
theorem C6_witness :
    (∃ r, evaluateNorm strFNone none = Except.ok r
      ∧ (∃ q, jLookup r "score" = some (JsonVal.num q) ∧ 0 ≤ q ∧ q ≤ 1)
      ∧ (∃ sfs, jLookup r "subscores" = some (JsonVal.obj sfs)
          ∧ (∀ k ∈ (["correctness", "completeness", "reasoning_quality",
              "format_compliance", "safety"] : List String),
              ∃ q, jLookup sfs k = some (JsonVal.num q) ∧ 0 ≤ q ∧ q ≤ 1)
          ∧ (∀ pr ∈ sfs, ∃ q, pr.2 = JsonVal.num q ∧ 0 ≤ q ∧ q ≤ 1))
      ∧ (∃ xs, jLookup r "error_tags" = some (JsonVal.arr xs)))
    ∧ evaluateNorm strFNone none = Except.ok
        [("score", JsonVal.num 0),
         ("subscores", JsonVal.obj
           [("correctness", JsonVal.num 0), ("completeness", JsonVal.num 0),
            ("reasoning_quality", JsonVal.num 0), ("format_compliance", JsonVal.num 0),
            ("safety", JsonVal.num 1)]),
         ("error_tags", JsonVal.arr []),
         ("feedback", JsonVal.str "")] :=
  C6_evaluate_normalizes strFNone none ⟨[], rfl⟩
    (fun fs0 h => by
      cases h
      exact Or.inl rfl)

/-- C10 witness: the bounds instantiated on factor `1/2` and the input
stream `1, 0`. -/
theorem C10_witness :
    (runEMA ⟨1 / 2, none⟩ [1, 0]).value = some (1 / 2)
    ∧ 0 ≤ (1 / 2 : ℚ) ∧ (1 / 2 : ℚ) ≤ 1 := by
  have hval : (runEMA ⟨1 / 2, none⟩ [1, 0]).value = some (1 / 2) := by
    simp [runEMA, EMAScore.update]
    norm_num
  refine ⟨hval, ?_⟩
  exact C10_ema_bounded (1 / 2) [1, 0] none (by norm_num) (by norm_num)
    (fun v hv => by cases hv)
    (by
      intro x hx
      rcases List.mem_cons.mp hx with rfl | hx'
      · exact ⟨by norm_num, by norm_num⟩
      · rcases List.mem_singleton.mp hx' with rfl
        exact ⟨by norm_num, by norm_num⟩)
    (1 / 2) hval
